import Mathlib

/-!
Verification development for the bv-graph-wasm directed-graph core.

The graph store is embedded from src/bv-graph-wasm/src/graph.rs: Rust
vectors become Lists, usize becomes Nat, and the HashMap node_index becomes
an association list with first-match lookup (keys are only ever inserted
fresh, so the lookup semantics coincide with the HashMap).  Mutating
methods take the graph and return the updated graph (plus the return
value, when the Rust method has one).

The topological engine lives in the algorithms/topo module, which is
declared in src/bv-graph-wasm/src/algorithms/mod.rs but whose
implementation file is not among the sources; it is therefore modelled
from the design document (Kahn's algorithm with a lowest-index-first
worklist).

The JSON codec layer (serde_json) is external library code; snapshots are
modelled structurally by GraphSnapshot, and to_snapshot / from_snapshot
embed exactly the repository-authored parts of to_json / from_json (the
snapshot construction and the replay loop).
-/

/-- The DiGraph struct from graph.rs. -/
structure DiGraph where
  nodes : List String
  node_index : List (String × Nat)
  adj : List (List Nat)
  rev_adj : List (List Nat)
  edge_count : Nat
  deriving DecidableEq

/-- The GraphSnapshot struct from graph.rs (serializable import/export form). -/
structure GraphSnapshot where
  nodes : List String
  edges : List (Nat × Nat)
  deriving DecidableEq

/-- DiGraph::new — create an empty graph. -/
def DiGraph.new : DiGraph :=
  { nodes := [], node_index := [], adj := [], rev_adj := [], edge_count := 0 }

/-- DiGraph::with_capacity — capacity hints are advisory only; the
constructed graph is empty, exactly as in the source. -/
def DiGraph.with_capacity (_nodeCapacity _edgeCapacity : Nat) : DiGraph :=
  { nodes := [], node_index := [], adj := [], rev_adj := [], edge_count := 0 }

/-- DiGraph::add_node — returns the existing index when the label is
already present, otherwise appends the label with the next sequential
index and fresh empty adjacency lists. -/
def DiGraph.add_node (g : DiGraph) (id : String) : DiGraph × Nat :=
  match g.node_index.lookup id with
  | some idx => (g, idx)
  | none =>
    let idx := g.nodes.length
    ({ nodes := g.nodes ++ [id]
       node_index := (id, idx) :: g.node_index
       adj := g.adj ++ [[]]
       rev_adj := g.rev_adj ++ [[]]
       edge_count := g.edge_count }, idx)

/-- DiGraph::add_edge — silently ignores out-of-range indices, is a no-op
when the edge already exists (linear scan of the forward list), otherwise
appends to both adjacency lists and bumps the edge counter. -/
def DiGraph.add_edge (g : DiGraph) (u v : Nat) : DiGraph :=
  if u ≥ g.nodes.length ∨ v ≥ g.nodes.length then g
  else if v ∈ g.adj.getD u [] then g
  else
    { g with
      adj := g.adj.set u (g.adj.getD u [] ++ [v])
      rev_adj := g.rev_adj.set v (g.rev_adj.getD v [] ++ [u])
      edge_count := g.edge_count + 1 }

/-- DiGraph::node_count. -/
def DiGraph.node_count (g : DiGraph) : Nat :=
  g.nodes.length

/-- DiGraph::node_id — label by index, none when out of range. -/
def DiGraph.node_id (g : DiGraph) (idx : Nat) : Option String :=
  g.nodes.get? idx

/-- DiGraph::node_idx — index by label, none when unknown. -/
def DiGraph.node_idx (g : DiGraph) (id : String) : Option Nat :=
  g.node_index.lookup id

/-- Helper for DiGraph::edges — enumerate the forward adjacency lists
starting at index i, pairing each source index with its targets. -/
def edgesFrom : Nat → List (List Nat) → List (Nat × Nat)
  | _, [] => []
  | i, l :: ls => (l.map fun t => (i, t)) ++ edgesFrom (i + 1) ls

/-- DiGraph::edges / DiGraph::edges_vec — all edges (from, to), enumerated
by iterating every source's forward list in index order. -/
def DiGraph.edgesList (g : DiGraph) : List (Nat × Nat) :=
  edgesFrom 0 g.adj

/-- The snapshot-construction half of DiGraph::to_json. -/
def DiGraph.to_snapshot (g : DiGraph) : GraphSnapshot :=
  { nodes := g.nodes, edges := g.edgesList }

/-- The replay half of DiGraph::from_json — rebuild a fresh graph by
replaying add_node for every label then add_edge for every pair, in order. -/
def DiGraph.from_snapshot (s : GraphSnapshot) : DiGraph :=
  let g1 := s.nodes.foldl (fun g id => (g.add_node id).1)
    (DiGraph.with_capacity s.nodes.length s.edges.length)
  s.edges.foldl (fun g e => g.add_edge e.1 e.2) g1

/-- C5: addNode is idempotent — a second call with the same label returns
exactly the same graph and index as the first call (hence nodeCount is
unchanged), and a fresh label (absent from node_index) is assigned the
index equal to the node count before the call, growing the count by one. -/
theorem add_node_idempotent (g : DiGraph) (id : String) :
    (g.add_node id).1.add_node id = g.add_node id ∧
    (g.node_index.lookup id = none →
      (g.add_node id).2 = g.node_count ∧
      (g.add_node id).1.node_count = g.node_count + 1) := by
  refine ⟨?_, ?_⟩
  · cases h : g.node_index.lookup id with
    | some i => simp [DiGraph.add_node, h]
    | none => simp [DiGraph.add_node, h, List.lookup]
  · intro h
    simp [DiGraph.add_node, h, DiGraph.node_count]

/-- C5 witness: concrete instance at the empty graph and label a. -/
theorem add_node_idempotent_witness :
    (DiGraph.new.add_node ("a")).1.add_node ("a") = DiGraph.new.add_node ("a") ∧
    ((DiGraph.new.add_node ("a")).2 = DiGraph.new.node_count ∧
      (DiGraph.new.add_node ("a")).1.node_count = DiGraph.new.node_count + 1) :=
  ⟨(add_node_idempotent DiGraph.new ("a")).1,
    (add_node_idempotent DiGraph.new ("a")).2 (by decide)⟩

/-! ### Basic list helpers -/

lemma getD_set_self {α : Type _} (l : List α) (i : Nat) (x d : α)
    (h : i < l.length) : (l.set i x).getD i d = x := by
  rw [List.getD_eq_getElem?_getD, List.getElem?_set_eq_of_lt x h]
  rfl

lemma getD_set_ne {α : Type _} (l : List α) {i j : Nat} (x d : α)
    (h : i ≠ j) : (l.set i x).getD j d = l.getD j d := by
  rw [List.getD_eq_getElem?_getD, List.getElem?_set_ne h,
    ← List.getD_eq_getElem?_getD]

lemma getD_oob {α : Type _} (l : List α) (i : Nat) (d : α)
    (h : l.length ≤ i) : l.getD i d = d := by
  rw [List.getD_eq_getElem?_getD, List.getElem?_eq_none h]
  rfl

lemma sum_map_length_set (ls : List (List Nat)) :
    ∀ i : Nat, ∀ x : Nat, i < ls.length →
      ((ls.set i (ls.getD i [] ++ [x])).map List.length).sum
        = ((ls.map List.length).sum) + 1 := by
  induction ls with
  | nil => intro i x h; simp at h
  | cons hd tl ih =>
    intro i x h
    cases i with
    | zero => simp [List.getD_cons_zero]; omega
    | succ n =>
      have hn : n < tl.length := by simpa using h
      have hstep : (hd :: tl).set (n + 1) ((hd :: tl).getD (n + 1) [] ++ [x])
          = hd :: tl.set n (tl.getD n [] ++ [x]) := by
        simp [List.getD_cons_succ]
      rw [hstep]
      simp only [List.map_cons, List.sum_cons, ih n x hn]
      omega

/-! ### Equation lemmas for add_edge -/

lemma add_edge_oob (g : DiGraph) (u v : Nat)
    (h : u ≥ g.nodes.length ∨ v ≥ g.nodes.length) : g.add_edge u v = g := by
  simp only [DiGraph.add_edge, if_pos h]

lemma add_edge_mem (g : DiGraph) (u v : Nat)
    (hu : u < g.nodes.length) (hv : v < g.nodes.length)
    (hmem : v ∈ g.adj.getD u []) : g.add_edge u v = g := by
  have hcond : ¬ (u ≥ g.nodes.length ∨ v ≥ g.nodes.length) := by omega
  simp only [DiGraph.add_edge, if_neg hcond, if_pos hmem]

lemma add_edge_pos (g : DiGraph) (u v : Nat)
    (hu : u < g.nodes.length) (hv : v < g.nodes.length)
    (hfresh : v ∉ g.adj.getD u []) :
    g.add_edge u v =
      { g with
        adj := g.adj.set u (g.adj.getD u [] ++ [v])
        rev_adj := g.rev_adj.set v (g.rev_adj.getD v [] ++ [u])
        edge_count := g.edge_count + 1 } := by
  have hcond : ¬ (u ≥ g.nodes.length ∨ v ≥ g.nodes.length) := by omega
  simp only [DiGraph.add_edge, if_neg hcond, if_neg hfresh]

/-- C6: addEdge is idempotent — starting from a graph without the edge
(u,v), with both indices in range, the first call grows edgeCount by
exactly one and the second call returns the graph unchanged, so two calls
grow edgeCount by 1, not 2.  The length hypotheses express the structural
invariant the Rust code relies on when it indexes adj[from] and
rev_adj[to]. -/
theorem add_edge_idempotent (g : DiGraph) (u v : Nat)
    (hA : g.adj.length = g.nodes.length) (hR : g.rev_adj.length = g.nodes.length)
    (hu : u < g.node_count) (hv : v < g.node_count)
    (hfresh : v ∉ g.adj.getD u []) :
    (g.add_edge u v).edge_count = g.edge_count + 1 ∧
    (g.add_edge u v).add_edge u v = g.add_edge u v := by
  have hu' : u < g.nodes.length := hu
  have hv' : v < g.nodes.length := hv
  rw [add_edge_pos g u v hu' hv' hfresh]
  refine ⟨rfl, ?_⟩
  apply add_edge_mem
  · exact hu'
  · exact hv'
  · rw [getD_set_self _ _ _ _ (hA ▸ hu')]
    simp

/-- C6 witness: two fresh nodes and the edge 0 → 1. -/
theorem add_edge_idempotent_witness :
    ((((DiGraph.new.add_node ("a")).1.add_node ("b")).1.add_edge 0 1).edge_count
        = ((DiGraph.new.add_node ("a")).1.add_node ("b")).1.edge_count + 1) ∧
    ((((DiGraph.new.add_node ("a")).1.add_node ("b")).1.add_edge 0 1).add_edge 0 1
        = ((DiGraph.new.add_node ("a")).1.add_node ("b")).1.add_edge 0 1) :=
  add_edge_idempotent ((DiGraph.new.add_node ("a")).1.add_node ("b")).1 0 1
    (by decide) (by decide) (by decide) (by decide) (by decide)

/-- C7: addEdge with an out-of-range endpoint is a silent no-op — the
resulting graph is equal to the original, so nodeCount, edgeCount and
every adjacency list are unchanged, and no error is raised (the function
is total). -/
theorem add_edge_out_of_range (g : DiGraph) (u v : Nat)
    (h : u ≥ g.node_count ∨ v ≥ g.node_count) : g.add_edge u v = g :=
  add_edge_oob g u v h

/-- C7 witness: edge 0 → 5 on a one-node graph. -/
theorem add_edge_out_of_range_witness :
    (DiGraph.new.add_node ("a")).1.add_edge 0 5 = (DiGraph.new.add_node ("a")).1 :=
  add_edge_out_of_range (DiGraph.new.add_node ("a")).1 0 5 (by decide)

/-! ### Reachable graphs and the structural invariant (C9) -/

/-- Graphs reachable from the constructors by any sequence of add_node and
add_edge calls. -/
inductive Reachable : DiGraph → Prop
  | new : Reachable DiGraph.new
  | with_capacity (nc ec : Nat) : Reachable (DiGraph.with_capacity nc ec)
  | add_node (g : DiGraph) (id : String) :
      Reachable g → Reachable (g.add_node id).1
  | add_edge (g : DiGraph) (u v : Nat) :
      Reachable g → Reachable (g.add_edge u v)

/-- The structural invariant of C9: the three vectors have equal length
and the edge counter equals the sum of the forward list lengths and also
the sum of the reverse list lengths. -/
def StructOk (g : DiGraph) : Prop :=
  g.adj.length = g.nodes.length ∧
  g.rev_adj.length = g.nodes.length ∧
  g.edge_count = (g.adj.map List.length).sum ∧
  g.edge_count = (g.rev_adj.map List.length).sum

lemma structOk_new : StructOk DiGraph.new := by
  refine ⟨rfl, rfl, rfl, rfl⟩

lemma structOk_with_capacity (nc ec : Nat) :
    StructOk (DiGraph.with_capacity nc ec) := by
  refine ⟨rfl, rfl, rfl, rfl⟩

lemma structOk_add_node (g : DiGraph) (id : String) (h : StructOk g) :
    StructOk (g.add_node id).1 := by
  obtain ⟨h1, h2, h3, h4⟩ := h
  unfold DiGraph.add_node
  cases hl : g.node_index.lookup id with
  | some i => exact ⟨h1, h2, h3, h4⟩
  | none =>
    refine ⟨?_, ?_, ?_, ?_⟩
    · simp [h1]
    · simp [h2]
    · simp [h3]
    · simp [h4]

lemma structOk_add_edge (g : DiGraph) (u v : Nat) (h : StructOk g) :
    StructOk (g.add_edge u v) := by
  obtain ⟨h1, h2, h3, h4⟩ := h
  by_cases hc : u ≥ g.nodes.length ∨ v ≥ g.nodes.length
  · rw [add_edge_oob g u v hc]
    exact ⟨h1, h2, h3, h4⟩
  · push_neg at hc
    obtain ⟨hu, hv⟩ := hc
    by_cases hm : v ∈ g.adj.getD u []
    · rw [add_edge_mem g u v hu hv hm]
      exact ⟨h1, h2, h3, h4⟩
    · rw [add_edge_pos g u v hu hv hm]
      have e1 := sum_map_length_set g.adj u v (h1 ▸ hu)
      have e2 := sum_map_length_set g.rev_adj v u (h2 ▸ hv)
      refine ⟨?_, ?_, ?_, ?_⟩
      · simpa using h1
      · simpa using h2
      · dsimp only
        rw [e1]
        omega
      · dsimp only
        rw [e2]
        omega

/-- C9: every graph reachable from new or with_capacity by add_node and
add_edge calls keeps the structural invariant — the nodes, forward and
reverse adjacency vectors have equal length, and edge_count equals the sum
of forward list lengths and the sum of reverse list lengths. -/
theorem reachable_structOk (g : DiGraph) (h : Reachable g) : StructOk g := by
  induction h with
  | new => exact structOk_new
  | with_capacity nc ec => exact structOk_with_capacity nc ec
  | add_node g id _ ih => exact structOk_add_node g id ih
  | add_edge g u v _ ih => exact structOk_add_edge g u v ih

/-- C9 witness: a concrete reachable graph with two nodes and one edge. -/
theorem reachable_structOk_witness :
    StructOk (((DiGraph.new.add_node ("a")).1.add_node ("b")).1.add_edge 0 1) :=
  reachable_structOk _
    (Reachable.add_edge _ 0 1
      (Reachable.add_node _ ("b") (Reachable.add_node _ ("a") Reachable.new)))

/-! ### Topological engine, modelled from the spec (the algorithms/topo
module is declared but its implementation file is not among the sources) -/

/-- Modelled from the spec: the worklist discipline of the missing
algorithms/topo module — always process the lowest pending index first;
none exactly when the worklist is empty. -/
def worklistPick : List Nat → Option Nat
  | [] => none
  | x :: xs => some (xs.foldl min x)

/-- Modelled from the spec: for each successor of the removed node,
decrement its working in-degree counter, enqueueing any that reach zero. -/
def processSuccs : List Nat → List Nat → List Nat → List Nat × List Nat
  | indeg, enq, [] => (indeg, enq)
  | indeg, enq, v :: rest =>
    processSuccs (indeg.set v (indeg.getD v 0 - 1))
      (if indeg.getD v 0 - 1 = 0 then enq ++ [v] else enq) rest

/-- Modelled from the spec: the Kahn worklist loop of the missing
algorithms/topo module — repeatedly remove the lowest pending node,
append it to the output, and process its successors; terminate when the
worklist is empty.  The fuel argument only bounds the recursion; one more
unit than the node count is always enough. -/
def kahnLoop (adj : List (List Nat)) :
    Nat → List Nat → List Nat → List Nat → List Nat
  | 0, _, _, out => out
  | fuel + 1, indeg, pending, out =>
    match worklistPick pending with
    | none => out
    | some u =>
      let p := processSuccs indeg [] (adj.getD u [])
      kahnLoop adj fuel p.1 (pending.erase u ++ p.2) (out ++ [u])

/-- Modelled from the spec: each node's initial in-degree, computed from
the reverse adjacency. -/
def indegInit (g : DiGraph) : List Nat :=
  (List.range g.nodes.length).map (fun v => (g.rev_adj.getD v []).length)

/-- Modelled from the spec: the seed worklist — all zero-in-degree nodes
in ascending index order. -/
def pendingInit (g : DiGraph) : List Nat :=
  (List.range g.nodes.length).filter
    (fun v => (g.rev_adj.getD v []).length == 0)

/-- Modelled from the spec: one full run of Kahn's algorithm on a graph. -/
def kahnRun (g : DiGraph) : List Nat :=
  kahnLoop g.adj (g.nodes.length + 1) (indegInit g) (pendingInit g) []

/-- Modelled from the spec: topologicalSort returns the output when its
length equals nodeCount, and the cyclic signal (none, the JS null)
otherwise. -/
def DiGraph.topological_sort (g : DiGraph) : Option (List Nat) :=
  if (kahnRun g).length = g.nodes.length then some (kahnRun g) else none

/-- Modelled from the spec: isDag runs the same Kahn loop, discards the
order and just compares counts. -/
def DiGraph.is_dag (g : DiGraph) : Bool :=
  (kahnRun g).length == g.nodes.length

/-- A topological order as the engine actually produces it: a permutation
of all node indices in which, for every edge (u,v), the source u precedes
the target v. -/
def IsTopoOrder (g : DiGraph) (l : List Nat) : Prop :=
  l.Perm (List.range g.nodes.length) ∧
  ∀ u v : Nat, (u, v) ∈ g.edgesList → l.indexOf u < l.indexOf v

/-- The ordering contract exactly as the specification document words it
(a node appears only after all of its successors): a permutation of all
node indices in which, for every edge (u,v), the target v is placed
before the source u. -/
def IsTopoOrderContract (g : DiGraph) (l : List Nat) : Prop :=
  l.Perm (List.range g.nodes.length) ∧
  ∀ u v : Nat, (u, v) ∈ g.edgesList → l.indexOf v < l.indexOf u

/-! ### Concrete sample graphs -/

/-- Two nodes a, b with the single edge a → b. -/
def gChain : DiGraph :=
  (((DiGraph.new.add_node ("a")).1.add_node ("b")).1).add_edge 0 1

/-- Three nodes a, b, c with edges a → b, a → c, b → c. -/
def gDiamond : DiGraph :=
  (((((DiGraph.new.add_node ("a")).1.add_node ("b")).1.add_node ("c")).1.add_edge
    0 1).add_edge 0 2).add_edge 1 2

/-- Two nodes a, b with edges a → b and b → a. -/
def gCycle : DiGraph :=
  ((((DiGraph.new.add_node ("a")).1.add_node ("b")).1).add_edge 0 1).add_edge 1 0

/-- One node a with the self-loop a → a. -/
def gSelf : DiGraph :=
  ((DiGraph.new.add_node ("a")).1).add_edge 0 0

/-- C1 counterexample: on the graph a → b the engine returns the order
[0, 1], in which the source 0 = a precedes its successor 1 = b, so the
returned order does not satisfy the claimed contract that every node
appears only after all of its successors (v before u for every edge
(u,v)). -/
theorem topo_contract_counterexample :
    gChain.topological_sort = some [0, 1] ∧
    ¬ IsTopoOrderContract gChain [0, 1] := by
  refine ⟨by decide, ?_⟩
  intro h
  exact absurd (h.2 0 1 (by decide)) (by decide)

/-- C2: on the three-node graph a, b, c with edges a → b, a → c, b → c
topologicalSort returns [0, 1, 2], an ordering in which a (index 0)
precedes b (index 1) and b precedes c (index 2). -/
theorem topo_sort_diamond :
    gDiamond.topological_sort = some [0, 1, 2] ∧
    [0, 1, 2].indexOf 0 < [0, 1, 2].indexOf 1 ∧
    [0, 1, 2].indexOf 1 < [0, 1, 2].indexOf 2 := by
  decide

/-- C4: isDag is false and topologicalSort returns the cyclic signal on
the two-node cycle a → b, b → a, and isDag is false on the one-node graph
with the self-loop a → a. -/
theorem topo_cycle_detection :
    gCycle.is_dag = false ∧ gCycle.topological_sort = none ∧
    gSelf.is_dag = false := by
  decide

/-- C3: isDag agrees with topologicalSort on every graph — it returns
true exactly when topologicalSort succeeds. -/
theorem is_dag_eq_topo_sort_isSome (g : DiGraph) :
    g.is_dag = (g.topological_sort).isSome := by
  unfold DiGraph.is_dag DiGraph.topological_sort
  by_cases h : (kahnRun g).length = g.nodes.length
  · simp [h]
  · simp [h]

/-! ### Well-formedness and Kahn loop invariants -/

/-- Well-formedness of a graph value: the pieces of the representation
invariant that the correctness proofs rely on (every graph built through
the API satisfies them). -/
structure Wf (g : DiGraph) : Prop where
  adj_len : g.adj.length = g.nodes.length
  rev_len : g.rev_adj.length = g.nodes.length
  nodes_nodup : g.nodes.Nodup
  adj_nodup : ∀ l ∈ g.adj, l.Nodup
  adj_range : ∀ l ∈ g.adj, ∀ v ∈ l, v < g.nodes.length
  rev_nodup : ∀ l ∈ g.rev_adj, l.Nodup
  rev_range : ∀ l ∈ g.rev_adj, ∀ u ∈ l, u < g.nodes.length
  agree : ∀ u, u < g.nodes.length → ∀ v, v < g.nodes.length →
    (v ∈ g.adj.getD u [] ↔ u ∈ g.rev_adj.getD v [])
  count : g.edge_count = (g.adj.map List.length).sum

lemma getD_mem {α : Type _} (l : List α) (i : Nat) (d : α)
    (h : i < l.length) : l.getD i d ∈ l := by
  rw [List.getD_eq_getElem?_getD, List.getElem?_eq_getElem h]
  exact List.getElem_mem h

lemma Wf.adj_getD_nodup {g : DiGraph} (hg : Wf g) (u : Nat) :
    (g.adj.getD u []).Nodup := by
  by_cases h : u < g.adj.length
  · exact hg.adj_nodup _ (getD_mem _ _ _ h)
  · rw [getD_oob _ _ _ (Nat.le_of_not_lt h)]
    exact List.nodup_nil

lemma Wf.adj_getD_range {g : DiGraph} (hg : Wf g) (u : Nat) :
    ∀ v ∈ g.adj.getD u [], v < g.nodes.length := by
  by_cases h : u < g.adj.length
  · exact hg.adj_range _ (getD_mem _ _ _ h)
  · rw [getD_oob _ _ _ (Nat.le_of_not_lt h)]
    intro v hv
    simp at hv

lemma Wf.rev_getD_nodup {g : DiGraph} (hg : Wf g) (v : Nat) :
    (g.rev_adj.getD v []).Nodup := by
  by_cases h : v < g.rev_adj.length
  · exact hg.rev_nodup _ (getD_mem _ _ _ h)
  · rw [getD_oob _ _ _ (Nat.le_of_not_lt h)]
    exact List.nodup_nil

lemma Wf.rev_getD_range {g : DiGraph} (hg : Wf g) (v : Nat) :
    ∀ u ∈ g.rev_adj.getD v [], u < g.nodes.length := by
  by_cases h : v < g.rev_adj.length
  · exact hg.rev_range _ (getD_mem _ _ _ h)
  · rw [getD_oob _ _ _ (Nat.le_of_not_lt h)]
    intro u hu
    simp at hu

lemma foldl_min_mem : ∀ (xs : List Nat) (x : Nat), xs.foldl min x ∈ x :: xs := by
  intro xs
  induction xs with
  | nil => intro x; simp
  | cons y ys ih =>
    intro x
    simp only [List.foldl_cons]
    rcases List.mem_cons.1 (ih (min x y)) with h1 | h1
    · rw [h1]
      rcases min_choice x y with hm | hm <;> simp [hm]
    · simp [h1]

lemma worklistPick_mem {l : List Nat} {u : Nat}
    (h : worklistPick l = some u) : u ∈ l := by
  cases l with
  | nil => simp [worklistPick] at h
  | cons x xs =>
    simp only [worklistPick, Option.some.injEq] at h
    rw [← h]
    exact foldl_min_mem xs x

lemma worklistPick_eq_none {l : List Nat} :
    worklistPick l = none ↔ l = [] := by
  cases l <;> simp [worklistPick]

/-- Membership in the edge enumeration. -/
lemma mem_edgesFrom : ∀ (ls : List (List Nat)) (i a b : Nat),
    ((a, b) ∈ edgesFrom i ls ↔
      ∃ j, j < ls.length ∧ a = i + j ∧ b ∈ ls.getD j []) := by
  intro ls
  induction ls with
  | nil => intro i a b; simp [edgesFrom]
  | cons l ls ih =>
    intro i a b
    simp only [edgesFrom, List.mem_append, List.mem_map, ih]
    constructor
    · rintro (⟨t, ht, heq⟩ | ⟨j, hj, ha, hb⟩)
      · obtain ⟨h1, h2⟩ := Prod.mk.injEq .. ▸ heq
        refine ⟨0, by simp, by omega, ?_⟩
        rw [List.getD_cons_zero, ← h2]
        exact ht
      · exact ⟨j + 1, by simpa using hj, by omega, by simpa [List.getD_cons_succ] using hb⟩
    · rintro ⟨j, hj, ha, hb⟩
      cases j with
      | zero =>
        left
        refine ⟨b, by simpa [List.getD_cons_zero] using hb, ?_⟩
        simp [ha]
      | succ j =>
        right
        exact ⟨j, by simpa using hj, by omega, by simpa [List.getD_cons_succ] using hb⟩

lemma mem_edgesList (g : DiGraph) (a b : Nat) :
    (a, b) ∈ g.edgesList ↔ a < g.adj.length ∧ b ∈ g.adj.getD a [] := by
  unfold DiGraph.edgesList
  rw [mem_edgesFrom]
  constructor
  · rintro ⟨j, hj, ha, hb⟩
    have : a = j := by omega
    subst this
    exact ⟨hj, hb⟩
  · rintro ⟨ha, hb⟩
    exact ⟨a, ha, by omega, hb⟩

/-- Number of predecessors of v not yet placed in out. -/
def remIndeg (g : DiGraph) (out : List Nat) (v : Nat) : Nat :=
  ((g.rev_adj.getD v []).filter (fun u => decide (u ∉ out))).length

/-- Invariant of the Kahn worklist loop. -/
structure KInv (g : DiGraph) (indeg pending out : List Nat) : Prop where
  hlen : indeg.length = g.nodes.length
  hnd : out.Nodup
  hrange : ∀ x ∈ out, x < g.nodes.length
  hdeg : ∀ v, v < g.nodes.length → indeg.getD v 0 = remIndeg g out v
  hpnd : pending.Nodup
  hpend : ∀ v, v ∈ pending ↔
    (v < g.nodes.length ∧ v ∉ out ∧ remIndeg g out v = 0)
  hord : ∀ v ∈ out, ∀ u ∈ g.rev_adj.getD v [],
    u ∈ out ∧ out.indexOf u < out.indexOf v

/-- Characterization of one pass over the successors of the removed node. -/
lemma processSuccs_spec : ∀ (succs : List Nat), succs.Nodup →
    ∀ (indeg enq : List Nat), (∀ v ∈ succs, v < indeg.length) →
    (processSuccs indeg enq succs).1.length = indeg.length ∧
    (∀ w : Nat, (processSuccs indeg enq succs).1.getD w 0
        = if w ∈ succs then indeg.getD w 0 - 1 else indeg.getD w 0) ∧
    (processSuccs indeg enq succs).2
        = enq ++ succs.filter (fun v => decide (indeg.getD v 0 - 1 = 0)) := by
  intro succs
  induction succs with
  | nil =>
    intro _ indeg enq _
    refine ⟨rfl, fun w => by simp [processSuccs], by simp [processSuccs]⟩
  | cons v rest ih =>
    intro hnd indeg enq hbd
    have hvrest : v ∉ rest := (List.nodup_cons.1 hnd).1
    have hrest : rest.Nodup := (List.nodup_cons.1 hnd).2
    have hv : v < indeg.length := hbd v (List.mem_cons_self v rest)
    have hbd2 : ∀ w ∈ rest, w < (indeg.set v (indeg.getD v 0 - 1)).length := by
      intro w hw
      rw [List.length_set]
      exact hbd w (List.mem_cons_of_mem v hw)
    have hstep : processSuccs indeg enq (v :: rest)
        = processSuccs (indeg.set v (indeg.getD v 0 - 1))
          (if indeg.getD v 0 - 1 = 0 then enq ++ [v] else enq) rest := rfl
    obtain ⟨ihL, ihD, ihE⟩ := ih hrest (indeg.set v (indeg.getD v 0 - 1))
      (if indeg.getD v 0 - 1 = 0 then enq ++ [v] else enq) hbd2
    refine ⟨?_, ?_, ?_⟩
    · rw [hstep, ihL, List.length_set]
    · intro w
      rw [hstep, ihD w]
      by_cases hwv : w = v
      · rw [hwv, if_neg hvrest, getD_set_self _ _ _ _ hv,
          if_pos (List.mem_cons_self v rest)]
      · rw [getD_set_ne _ _ _ (fun he => hwv he.symm)]
        by_cases hwr : w ∈ rest
        · simp [hwr, hwv]
        · simp [hwr, hwv]
    · rw [hstep, ihE]
      have hcong : rest.filter
            (fun x => decide ((indeg.set v (indeg.getD v 0 - 1)).getD x 0 - 1 = 0))
          = rest.filter (fun x => decide (indeg.getD x 0 - 1 = 0)) := by
        apply List.filter_congr
        intro x hx
        have hxv : v ≠ x := fun he => hvrest (he ▸ hx)
        rw [getD_set_ne _ _ _ hxv]
      rw [hcong, List.filter_cons]
      simp only [decide_eq_true_eq]
      by_cases hz : indeg.getD v 0 - 1 = 0
      · rw [if_pos hz, if_pos hz]
        simp
      · rw [if_neg hz, if_neg hz]

lemma filter_notMem_append_one (m out : List Nat) (u : Nat)
    (hm : m.Nodup) (hout : u ∉ out) :
    (m.filter (fun x => decide (x ∉ out ++ [u]))).length
      = (m.filter (fun x => decide (x ∉ out))).length
        - (if u ∈ m then 1 else 0) := by
  have h1 : m.filter (fun x => decide (x ∉ out ++ [u]))
      = (m.filter (fun x => decide (x ∉ out))).filter
          (fun x => decide (¬ x = u)) := by
    rw [List.filter_filter]
    apply List.filter_congr
    intro x _
    by_cases hx1 : x = u <;> by_cases hx2 : x ∈ out <;>
      simp [hx1, hx2, List.mem_append]
  have h2 : (m.filter (fun x => decide (x ∉ out))).filter
        (fun x => decide (¬ x = u))
      = (m.filter (fun x => decide (x ∉ out))).erase u := by
    rw [(hm.filter _).erase_eq_filter u]
    apply List.filter_congr
    intro x _
    by_cases hx : x = u <;> simp [hx]
  rw [h1, h2]
  by_cases hu : u ∈ m.filter (fun x => decide (x ∉ out))
  · rw [List.length_erase_of_mem hu]
    have : u ∈ m := (List.mem_filter.1 hu).1
    rw [if_pos this]
  · rw [List.erase_of_not_mem hu]
    have : u ∉ m := fun hc => hu (List.mem_filter.2 ⟨hc, by simp [hout]⟩)
    rw [if_neg this]
    rfl

lemma remIndeg_append (g : DiGraph) (hg : Wf g) (out : List Nat) (u v : Nat)
    (hun : u < g.nodes.length) (hvn : v < g.nodes.length) (hout : u ∉ out) :
    remIndeg g (out ++ [u]) v
      = remIndeg g out v - (if v ∈ g.adj.getD u [] then 1 else 0) := by
  unfold remIndeg
  rw [filter_notMem_append_one _ _ _ (hg.rev_getD_nodup v) hout]
  congr 1
  by_cases h : v ∈ g.adj.getD u []
  · rw [if_pos ((hg.agree u hun v hvn).1 h), if_pos h]
  · rw [if_neg (fun hc => h ((hg.agree u hun v hvn).2 hc)), if_neg h]

lemma remIndeg_pos_of_succ (g : DiGraph) (hg : Wf g) (out : List Nat)
    (u x : Nat) (hun : u < g.nodes.length) (hxn : x < g.nodes.length)
    (hout : u ∉ out) (hx : x ∈ g.adj.getD u []) :
    0 < remIndeg g out x := by
  unfold remIndeg
  exact List.length_pos_of_mem
    (List.mem_filter.2 ⟨(hg.agree u hun x hxn).1 hx, by simp [hout]⟩)

lemma remIndeg_eq_zero_iff (g : DiGraph) (out : List Nat) (v : Nat) :
    remIndeg g out v = 0 ↔ ∀ w ∈ g.rev_adj.getD v [], w ∈ out := by
  unfold remIndeg
  rw [List.length_eq_zero, List.filter_eq_nil_iff]
  simp only [decide_eq_true_eq, Decidable.not_not]

/-- One iteration of the Kahn loop preserves the invariant. -/
lemma kahnStep (g : DiGraph) (hg : Wf g) (indeg pending out : List Nat)
    (hI : KInv g indeg pending out) (u : Nat)
    (hu : worklistPick pending = some u) :
    KInv g (processSuccs indeg [] (g.adj.getD u [])).1
      (pending.erase u ++ (processSuccs indeg [] (g.adj.getD u [])).2)
      (out ++ [u]) := by
  have hupend : u ∈ pending := worklistPick_mem hu
  obtain ⟨hun, huout, huzero⟩ := (hI.hpend u).1 hupend
  have hAnd : (g.adj.getD u []).Nodup := hg.adj_getD_nodup u
  have hArange : ∀ v ∈ g.adj.getD u [], v < g.nodes.length :=
    hg.adj_getD_range u
  have hAbd : ∀ v ∈ g.adj.getD u [], v < indeg.length := by
    intro v hv
    rw [hI.hlen]
    exact hArange v hv
  obtain ⟨hL, hD, hE⟩ := processSuccs_spec (g.adj.getD u []) hAnd indeg [] hAbd
  have hzs : (processSuccs indeg [] (g.adj.getD u [])).2
      = (g.adj.getD u []).filter (fun v => decide (indeg.getD v 0 - 1 = 0)) := by
    rw [hE, List.nil_append]
  have hzs_mem : ∀ v, v ∈ (processSuccs indeg [] (g.adj.getD u [])).2 ↔
      (v ∈ g.adj.getD u [] ∧ indeg.getD v 0 - 1 = 0) := by
    intro v
    rw [hzs, List.mem_filter]
    simp
  have hz_not_out : ∀ v ∈ g.adj.getD u [], v ∉ out := by
    intro v hv hvout
    exact huout
      (hI.hord v hvout u ((hg.agree u hun v (hArange v hv)).1 hv)).1
  have hz_ne_u : ∀ v ∈ g.adj.getD u [], v ≠ u := by
    intro v hv hveq
    subst hveq
    have := remIndeg_pos_of_succ g hg out v v hun hun huout hv
    omega
  have hrem2 : ∀ v, v < g.nodes.length →
      remIndeg g (out ++ [u]) v
        = remIndeg g out v - (if v ∈ g.adj.getD u [] then 1 else 0) :=
    fun v hv => remIndeg_append g hg out u v hun hv huout
  refine ⟨?_, ?_, ?_, ?_, ?_, ?_, ?_⟩
  · rw [hL, hI.hlen]
  · rw [List.nodup_append]
    refine ⟨hI.hnd, List.nodup_singleton u, ?_⟩
    intro a ha hb
    rw [List.mem_singleton] at hb
    subst hb
    exact huout ha
  · intro x hx
    rcases List.mem_append.1 hx with h | h
    · exact hI.hrange x h
    · rw [List.mem_singleton] at h
      subst h
      exact hun
  · intro v hv
    rw [hD v, hrem2 v hv]
    by_cases hvA : v ∈ g.adj.getD u []
    · rw [if_pos hvA, if_pos hvA, hI.hdeg v hv]
    · rw [if_neg hvA, if_neg hvA, hI.hdeg v hv]
      omega
  · rw [List.nodup_append]
    refine ⟨hI.hpnd.erase u, ?_, ?_⟩
    · rw [hzs]
      exact hAnd.filter _
    · intro a ha hb
      have haP : a ∈ pending := (hI.hpnd.mem_erase_iff.1 ha).2
      obtain ⟨han, haout, hazero⟩ := (hI.hpend a).1 haP
      have haA : a ∈ g.adj.getD u [] := ((hzs_mem a).1 hb).1
      have := remIndeg_pos_of_succ g hg out u a hun (hArange a haA) huout haA
      omega
  · intro v
    constructor
    · intro hv
      rcases List.mem_append.1 hv with h | h
      · obtain ⟨hne, hvp⟩ := hI.hpnd.mem_erase_iff.1 h
        obtain ⟨hvn, hvout, hvzero⟩ := (hI.hpend v).1 hvp
        refine ⟨hvn, ?_, ?_⟩
        · intro hc
          rcases List.mem_append.1 hc with hc | hc
          · exact hvout hc
          · rw [List.mem_singleton] at hc
            exact hne hc
        · rw [hrem2 v hvn]
          omega
      · obtain ⟨hvA, hvz⟩ := (hzs_mem v).1 h
        have hvn := hArange v hvA
        refine ⟨hvn, ?_, ?_⟩
        · intro hc
          rcases List.mem_append.1 hc with hc | hc
          · exact hz_not_out v hvA hc
          · rw [List.mem_singleton] at hc
            exact hz_ne_u v hvA hc
        · rw [hrem2 v hvn, if_pos hvA, ← hI.hdeg v hvn]
          omega
    · rintro ⟨hvn, hvout2, hvzero2⟩
      have hvout : v ∉ out := fun hc => hvout2 (List.mem_append.2 (Or.inl hc))
      have hvne : v ≠ u := by
        intro hc
        exact hvout2 (List.mem_append.2 (Or.inr (by
          rw [hc]
          exact List.mem_singleton_self u)))
      rw [hrem2 v hvn] at hvzero2
      by_cases hvA : v ∈ g.adj.getD u []
      · rw [if_pos hvA] at hvzero2
        apply List.mem_append.2
        right
        refine (hzs_mem v).2 ⟨hvA, ?_⟩
        rw [hI.hdeg v hvn]
        omega
      · rw [if_neg hvA] at hvzero2
        have hvzero : remIndeg g out v = 0 := by omega
        exact List.mem_append.2
          (Or.inl (hI.hpnd.mem_erase_iff.2
            ⟨hvne, (hI.hpend v).2 ⟨hvn, hvout, hvzero⟩⟩))
  · intro v hvout2 w hw
    rcases List.mem_append.1 hvout2 with hv | hv
    · obtain ⟨hwout, hidx⟩ := hI.hord v hv w hw
      refine ⟨List.mem_append.2 (Or.inl hwout), ?_⟩
      rw [List.indexOf_append_of_mem hwout, List.indexOf_append_of_mem hv]
      exact hidx
    · rw [List.mem_singleton] at hv
      subst hv
      have hwout : w ∈ out := (remIndeg_eq_zero_iff g out v).1 huzero w hw
      refine ⟨List.mem_append.2 (Or.inl hwout), ?_⟩
      rw [List.indexOf_append_of_mem hwout,
        List.indexOf_append_of_not_mem huout, List.indexOf_cons_self]
      have : List.indexOf w out < out.length := List.indexOf_lt_length.2 hwout
      omega

lemma map_range_getD (f : Nat → Nat) (n v d : Nat) (h : v < n) :
    ((List.range n).map f).getD v d = f v := by
  rw [List.getD_eq_getElem?_getD, List.getElem?_map, List.getElem?_range h]
  rfl

/-- The invariant holds at the start of the loop. -/
lemma kInv_init (g : DiGraph) :
    KInv g (indegInit g) (pendingInit g) [] := by
  refine ⟨?_, ?_, ?_, ?_, ?_, ?_, ?_⟩
  · simp [indegInit]
  · exact List.nodup_nil
  · intro x hx
    simp at hx
  · intro v hv
    unfold indegInit
    rw [map_range_getD _ _ _ _ hv]
    unfold remIndeg
    have hfil : (g.rev_adj.getD v []).filter
        (fun u => decide (u ∉ ([] : List Nat))) = g.rev_adj.getD v [] := by
      simp
    rw [hfil]
  · exact (List.nodup_range _).filter _
  · intro v
    simp [pendingInit, remIndeg, List.mem_filter, List.mem_range]
  · intro v hv
    simp at hv

/-- Running the loop with enough fuel lands in a state with an empty
worklist that still satisfies the invariant. -/
lemma kahnLoop_run (g : DiGraph) (hg : Wf g) : ∀ (fuel : Nat)
    (indeg pending out : List Nat), KInv g indeg pending out →
    g.nodes.length - out.length < fuel →
    ∃ indeg2, KInv g indeg2 [] (kahnLoop g.adj fuel indeg pending out) := by
  intro fuel
  induction fuel with
  | zero =>
    intro indeg pending out hI hf
    omega
  | succ fuel ih =>
    intro indeg pending out hI hf
    cases hpick : worklistPick pending with
    | none =>
      have hpe : pending = [] := worklistPick_eq_none.1 hpick
      subst hpe
      have hunf : kahnLoop g.adj (fuel + 1) indeg [] out = out := by
        simp [kahnLoop, worklistPick]
      rw [hunf]
      exact ⟨indeg, hI⟩
    | some u =>
      have hstep := kahnStep g hg indeg pending out hI u hpick
      have hlen2 : (out ++ [u]).length ≤ g.nodes.length := by
        have hsub : (out ++ [u]) ⊆ List.range g.nodes.length := by
          intro x hx
          exact List.mem_range.2 (hstep.hrange x hx)
        have := (hstep.hnd.subperm hsub).length_le
        simpa using this
      have hf2 : g.nodes.length - (out ++ [u]).length < fuel := by
        simp only [List.length_append, List.length_singleton] at hlen2 ⊢
        omega
      have hunf : kahnLoop g.adj (fuel + 1) indeg pending out
          = kahnLoop g.adj fuel (processSuccs indeg [] (g.adj.getD u [])).1
            (pending.erase u ++ (processSuccs indeg [] (g.adj.getD u [])).2)
            (out ++ [u]) := by
        simp [kahnLoop, hpick]
      rw [hunf]
      exact ih _ _ _ hstep hf2

/-- C1 (amended): on every well-formed graph, topologicalSort either
returns an ordering of all node indices in which every node appears
before all of its successors — for every edge (u,v) the source u is
placed before the target v — or returns the cyclic signal (none) exactly
when no such ordering exists. -/
theorem topological_sort_correct (g : DiGraph) (hg : Wf g) :
    (∀ l, g.topological_sort = some l → IsTopoOrder g l) ∧
    (g.topological_sort = none → ∀ l, ¬ IsTopoOrder g l) := by
  obtain ⟨indeg2, hI2⟩ := kahnLoop_run g hg (g.nodes.length + 1)
    (indegInit g) (pendingInit g) [] (kInv_init g) (by simp)
  have hrun : kahnRun g = kahnLoop g.adj (g.nodes.length + 1)
      (indegInit g) (pendingInit g) [] := rfl
  rw [← hrun] at hI2
  constructor
  · intro l hl
    unfold DiGraph.topological_sort at hl
    by_cases hlen : (kahnRun g).length = g.nodes.length
    · rw [if_pos hlen] at hl
      injection hl with hl
      subst hl
      have hsub : kahnRun g ⊆ List.range g.nodes.length :=
        fun x hx => List.mem_range.2 (hI2.hrange x hx)
      have hperm : (kahnRun g).Perm (List.range g.nodes.length) :=
        (hI2.hnd.subperm hsub).perm_of_length_le
          (le_of_eq (by simp [hlen]))
      refine ⟨hperm, ?_⟩
      intro u v hmem
      obtain ⟨hua, hvA⟩ := (mem_edgesList g u v).1 hmem
      have hun : u < g.nodes.length := hg.adj_len ▸ hua
      have hvn : v < g.nodes.length := hg.adj_getD_range u v hvA
      have hvin : v ∈ kahnRun g := hperm.mem_iff.2 (List.mem_range.2 hvn)
      exact (hI2.hord v hvin u ((hg.agree u hun v hvn).1 hvA)).2
    · rw [if_neg hlen] at hl
      exact absurd hl (by simp)
  · intro hnone l hIs
    unfold DiGraph.topological_sort at hnone
    by_cases hlen : (kahnRun g).length = g.nodes.length
    · rw [if_pos hlen] at hnone
      exact absurd hnone (by simp)
    · have key : ∀ k : Nat, ∀ v : Nat, v < g.nodes.length →
          List.indexOf v l = k → v ∈ kahnRun g := by
        intro k
        induction k using Nat.strong_induction_on with
        | _ k ih =>
          intro v hv hidx
          by_contra hvout
          have hpred : ∀ w ∈ g.rev_adj.getD v [], w ∈ kahnRun g := by
            intro w hw
            have hwn : w < g.nodes.length := hg.rev_getD_range v w hw
            have hedge : (w, v) ∈ g.edgesList :=
              (mem_edgesList g w v).2
                ⟨hg.adj_len.symm ▸ hwn, (hg.agree w hwn v hv).2 hw⟩
            have hlt := hIs.2 w v hedge
            exact ih (List.indexOf w l) (hidx ▸ hlt) w hwn rfl
          have hrem : remIndeg g (kahnRun g) v = 0 :=
            (remIndeg_eq_zero_iff g _ v).2 hpred
          have : v ∈ ([] : List Nat) := (hI2.hpend v).2 ⟨hv, hvout, hrem⟩
          simp at this
      have hsub2 : List.range g.nodes.length ⊆ kahnRun g :=
        fun v hvr => key (List.indexOf v l) v (List.mem_range.1 hvr) rfl
      have h1 := ((List.nodup_range g.nodes.length).subperm hsub2).length_le
      have hsub : kahnRun g ⊆ List.range g.nodes.length :=
        fun x hx => List.mem_range.2 (hI2.hrange x hx)
      have h2 := (hI2.hnd.subperm hsub).length_le
      simp only [List.length_range] at h1 h2
      exact hlen (le_antisymm h2 h1)

/-- C1 witness: the amended correctness applied to the concrete graph
a → b, whose returned order [0, 1] is a valid topological order. -/
theorem topological_sort_correct_witness : IsTopoOrder gChain [0, 1] :=
  (topological_sort_correct gChain (by constructor <;> decide)).1 [0, 1]
    (by decide)

/-! ### Snapshot round trip (C8) -/

lemma lookup_cons_ne {β : Type _} (k : String) (b : β)
    (es : List (String × β)) {x : String} (h : x ≠ k) :
    List.lookup x ((k, b) :: es) = List.lookup x es := by
  have hbe : (x == k) = false := by
    simp [h]
  simp [List.lookup, hbe]

lemma lookup_cons_self {β : Type _} (k : String) (b : β)
    (es : List (String × β)) :
    List.lookup k ((k, b) :: es) = some b := by
  simp [List.lookup]

lemma add_node_fresh_eq (g : DiGraph) (id : String)
    (h : g.node_index.lookup id = none) :
    (g.add_node id).1 =
      { nodes := g.nodes ++ [id]
        node_index := (id, g.nodes.length) :: g.node_index
        adj := g.adj ++ [[]]
        rev_adj := g.rev_adj ++ [[]]
        edge_count := g.edge_count } := by
  simp [DiGraph.add_node, h]

/-- Replaying a list of fresh, pairwise distinct labels appends them in
order and pads both adjacency vectors with empty lists. -/
lemma replay_nodes_fresh : ∀ (ids : List String) (g0 : DiGraph),
    ids.Nodup → (∀ x ∈ ids, g0.node_index.lookup x = none) →
    (ids.foldl (fun g id => (g.add_node id).1) g0).nodes = g0.nodes ++ ids ∧
    (ids.foldl (fun g id => (g.add_node id).1) g0).adj
      = g0.adj ++ List.replicate ids.length [] ∧
    (ids.foldl (fun g id => (g.add_node id).1) g0).rev_adj
      = g0.rev_adj ++ List.replicate ids.length [] ∧
    (ids.foldl (fun g id => (g.add_node id).1) g0).edge_count
      = g0.edge_count := by
  intro ids
  induction ids with
  | nil =>
    intro g0 _ _
    simp
  | cons id rest ih =>
    intro g0 hnd hfresh
    have hid : g0.node_index.lookup id = none :=
      hfresh id (List.mem_cons_self id rest)
    have hstep := add_node_fresh_eq g0 id hid
    have hfresh2 : ∀ x ∈ rest, (g0.add_node id).1.node_index.lookup x = none := by
      intro x hx
      rw [hstep]
      have hne : x ≠ id := by
        intro he
        exact (List.nodup_cons.1 hnd).1 (he ▸ hx)
      show List.lookup x ((id, g0.nodes.length) :: g0.node_index) = none
      rw [lookup_cons_ne _ _ _ hne]
      exact hfresh x (List.mem_cons_of_mem id hx)
    obtain ⟨ih1, ih2, ih3, ih4⟩ :=
      ih (g0.add_node id).1 (List.nodup_cons.1 hnd).2 hfresh2
    simp only [List.foldl_cons]
    refine ⟨?_, ?_, ?_, ?_⟩
    · rw [ih1, hstep]
      simp
    · rw [ih2, hstep]
      simp [List.replicate_succ]
    · rw [ih3, hstep]
      simp [List.replicate_succ]
    · rw [ih4, hstep]

lemma add_edge_nodes (g : DiGraph) (u v : Nat) :
    (g.add_edge u v).nodes = g.nodes := by
  unfold DiGraph.add_edge
  split
  · rfl
  · split
    · rfl
    · rfl

/-- Replaying a duplicate-free list of in-range, not-yet-present edges
adds every one of them and leaves the node list alone. -/
lemma replay_edges : ∀ (E : List (Nat × Nat)) (h : DiGraph), E.Nodup →
    (∀ e ∈ E, e.1 < h.nodes.length ∧ e.2 < h.nodes.length) →
    (∀ e ∈ E, e.2 ∉ h.adj.getD e.1 []) →
    h.adj.length = h.nodes.length →
    (E.foldl (fun k e => k.add_edge e.1 e.2) h).nodes = h.nodes ∧
    (E.foldl (fun k e => k.add_edge e.1 e.2) h).edge_count
      = h.edge_count + E.length := by
  intro E
  induction E with
  | nil =>
    intro h _ _ _ _
    simp
  | cons e rest ih =>
    intro h hnd hbd hfr hlen
    obtain ⟨he1, he2⟩ := hbd e (List.mem_cons_self e rest)
    have hfr1 : e.2 ∉ h.adj.getD e.1 [] := hfr e (List.mem_cons_self e rest)
    have hstep := add_edge_pos h e.1 e.2 he1 he2 hfr1
    have h2nodes : (h.add_edge e.1 e.2).nodes = h.nodes := add_edge_nodes h e.1 e.2
    have h2cnt : (h.add_edge e.1 e.2).edge_count = h.edge_count + 1 := by
      rw [hstep]
    have h2adjlen : (h.add_edge e.1 e.2).adj.length
        = (h.add_edge e.1 e.2).nodes.length := by
      rw [hstep]
      simpa using hlen
    have h2adj : ∀ w : Nat, (h.add_edge e.1 e.2).adj.getD w []
        = if w = e.1 then h.adj.getD e.1 [] ++ [e.2] else h.adj.getD w [] := by
      intro w
      rw [hstep]
      by_cases hw : w = e.1
      · rw [if_pos hw, hw]
        exact getD_set_self _ _ _ _ (hlen ▸ he1)
      · rw [if_neg hw]
        exact getD_set_ne _ _ _ (fun he => hw he.symm)
    have hbd2 : ∀ x ∈ rest, x.1 < (h.add_edge e.1 e.2).nodes.length ∧
        x.2 < (h.add_edge e.1 e.2).nodes.length := by
      intro x hx
      rw [h2nodes]
      exact hbd x (List.mem_cons_of_mem e hx)
    have hfr2 : ∀ x ∈ rest, x.2 ∉ (h.add_edge e.1 e.2).adj.getD x.1 [] := by
      intro x hx hc
      rw [h2adj x.1] at hc
      by_cases hx1 : x.1 = e.1
      · rw [if_pos hx1] at hc
        rcases List.mem_append.1 hc with hc | hc
        · exact hfr x (List.mem_cons_of_mem e hx) (hx1.symm ▸ hc)
        · rw [List.mem_singleton] at hc
          have hxe : x = e := Prod.ext hx1 hc
          exact (List.nodup_cons.1 hnd).1 (hxe ▸ hx)
      · rw [if_neg hx1] at hc
        exact hfr x (List.mem_cons_of_mem e hx) hc
    obtain ⟨ih1, ih2⟩ := ih (h.add_edge e.1 e.2)
      (List.nodup_cons.1 hnd).2 hbd2 hfr2 h2adjlen
    simp only [List.foldl_cons]
    refine ⟨?_, ?_⟩
    · rw [ih1, h2nodes]
    · rw [ih2, h2cnt]
      simp
      omega

lemma edgesFrom_length : ∀ (ls : List (List Nat)) (i : Nat),
    (edgesFrom i ls).length = (ls.map List.length).sum := by
  intro ls
  induction ls with
  | nil => intro i; rfl
  | cons l ls ih => intro i; simp [edgesFrom, ih]

lemma edgesFrom_nodup : ∀ (ls : List (List Nat)) (i : Nat),
    (∀ l ∈ ls, l.Nodup) → (edgesFrom i ls).Nodup := by
  intro ls
  induction ls with
  | nil =>
    intro i _
    simp [edgesFrom]
  | cons l ls ih =>
    intro i hnd
    rw [show edgesFrom i (l :: ls)
      = (l.map fun t => (i, t)) ++ edgesFrom (i + 1) ls from rfl]
    rw [List.nodup_append]
    have hinj : Function.Injective (fun t : Nat => (i, t)) := by
      intro a b hab
      simpa using hab
    refine ⟨(hnd l (List.mem_cons_self l ls)).map hinj,
      ih (i + 1) (fun x hx => hnd x (List.mem_cons_of_mem l hx)), ?_⟩
    intro p hp1 hp2
    obtain ⟨t, _, heq⟩ := List.mem_map.1 hp1
    obtain ⟨j, _, ha, _⟩ := (mem_edgesFrom ls (i + 1) p.1 p.2).1 hp2
    have hpi : p.1 = i := by rw [← heq]
    omega

lemma getD_replicate_nil (n i : Nat) :
    (List.replicate n ([] : List Nat)).getD i [] = [] := by
  rw [List.getD_eq_getElem?_getD, List.getElem?_replicate]
  split <;> rfl

/-- C8: round-tripping a well-formed graph through snapshot export
then import reproduces the node count, the edge count and the label at
every index.  (The serde_json string codec between the two halves is external
library code and is modelled as the identity on the snapshot value.) -/
theorem snapshot_roundtrip (g : DiGraph) (hg : Wf g) :
    (DiGraph.from_snapshot g.to_snapshot).node_count = g.node_count ∧
    (DiGraph.from_snapshot g.to_snapshot).edge_count = g.edge_count ∧
    ∀ i : Nat, (DiGraph.from_snapshot g.to_snapshot).node_id i
      = g.node_id i := by
  have hfs : DiGraph.from_snapshot g.to_snapshot
      = g.edgesList.foldl (fun k e => k.add_edge e.1 e.2)
          (g.nodes.foldl (fun h id => (h.add_node id).1)
            (DiGraph.with_capacity g.nodes.length g.edgesList.length)) := rfl
  have hfresh0 : ∀ x ∈ g.nodes,
      (DiGraph.with_capacity g.nodes.length
        g.edgesList.length).node_index.lookup x = none := by
    intro x _
    rfl
  obtain ⟨h1, h2, h3, h4⟩ := replay_nodes_fresh g.nodes
    (DiGraph.with_capacity g.nodes.length g.edgesList.length)
    hg.nodes_nodup hfresh0
  have hn1 : (g.nodes.foldl (fun h id => (h.add_node id).1)
      (DiGraph.with_capacity g.nodes.length g.edgesList.length)).nodes
      = g.nodes := by
    rw [h1]
    simp [DiGraph.with_capacity]
  have hadj1 : (g.nodes.foldl (fun h id => (h.add_node id).1)
      (DiGraph.with_capacity g.nodes.length g.edgesList.length)).adj
      = List.replicate g.nodes.length [] := by
    rw [h2]
    simp [DiGraph.with_capacity]
  have hcnt1 : (g.nodes.foldl (fun h id => (h.add_node id).1)
      (DiGraph.with_capacity g.nodes.length g.edgesList.length)).edge_count
      = 0 := by
    rw [h4]
    rfl
  have hEnd : g.edgesList.Nodup := edgesFrom_nodup g.adj 0 hg.adj_nodup
  obtain ⟨hE1, hE2⟩ := replay_edges g.edgesList
    (g.nodes.foldl (fun h id => (h.add_node id).1)
      (DiGraph.with_capacity g.nodes.length g.edgesList.length))
    hEnd
    (by
      intro e he
      obtain ⟨hea, heb⟩ := (mem_edgesList g e.1 e.2).1 he
      rw [hn1]
      exact ⟨hg.adj_len ▸ hea, hg.adj_getD_range e.1 e.2 heb⟩)
    (by
      intro e _
      rw [hadj1, getD_replicate_nil]
      simp)
    (by
      rw [hadj1, hn1]
      simp)
  have hlenE : g.edgesList.length = g.edge_count := by
    rw [show g.edgesList.length = (g.adj.map List.length).sum from
      edgesFrom_length g.adj 0, ← hg.count]
  refine ⟨?_, ?_, ?_⟩
  · show (DiGraph.from_snapshot g.to_snapshot).nodes.length = g.nodes.length
    rw [hfs, hE1, hn1]
  · rw [hfs, hE2, hcnt1, hlenE]
    omega
  · intro i
    show (DiGraph.from_snapshot g.to_snapshot).nodes.get? i = g.nodes.get? i
    rw [hfs, hE1, hn1]

/-- C8 witness: concrete instance on the graph a → b. -/
theorem snapshot_roundtrip_witness :
    (DiGraph.from_snapshot gChain.to_snapshot).node_count
      = gChain.node_count ∧
    (DiGraph.from_snapshot gChain.to_snapshot).edge_count
      = gChain.edge_count ∧
    (DiGraph.from_snapshot gChain.to_snapshot).node_id 0
      = gChain.node_id 0 :=
  ⟨(snapshot_roundtrip gChain (by constructor <;> decide)).1,
    (snapshot_roundtrip gChain (by constructor <;> decide)).2.1,
    (snapshot_roundtrip gChain (by constructor <;> decide)).2.2 0⟩

/-! ### Snapshots with duplicate labels (C10) -/

/-- The node_index lookup recognises exactly the labels already stored. -/
def NodeIdxOk (g : DiGraph) : Prop :=
  ∀ id : String, g.node_index.lookup id = none ↔ id ∉ g.nodes

lemma add_node_nodes_char (g : DiGraph) (id : String) (h : NodeIdxOk g) :
    ((g.add_node id).1.nodes
        = if id ∈ g.nodes then g.nodes else g.nodes ++ [id]) ∧
    NodeIdxOk (g.add_node id).1 := by
  cases hl : g.node_index.lookup id with
  | some i =>
    have hmem : id ∈ g.nodes := by
      by_contra hc
      rw [(h id).2 hc] at hl
      exact Option.noConfusion hl
    have hone : (g.add_node id).1 = g := by
      simp [DiGraph.add_node, hl]
    rw [hone, if_pos hmem]
    exact ⟨rfl, h⟩
  | none =>
    have hmem : id ∉ g.nodes := (h id).1 hl
    have hstep := add_node_fresh_eq g id hl
    rw [hstep, if_neg hmem]
    refine ⟨rfl, ?_⟩
    intro x
    show List.lookup x ((id, g.nodes.length) :: g.node_index) = none
      ↔ x ∉ g.nodes ++ [id]
    by_cases hx : x = id
    · subst hx
      rw [lookup_cons_self]
      simp
    · rw [lookup_cons_ne _ _ _ hx, h x]
      simp [List.mem_append, hx]

/-- Replaying an arbitrary label list keeps the node list duplicate-free
and its members are exactly the old members plus the replayed labels. -/
lemma replay_nodes_dedup : ∀ (ids : List String) (g0 : DiGraph),
    NodeIdxOk g0 → g0.nodes.Nodup →
    (ids.foldl (fun g id => (g.add_node id).1) g0).nodes.Nodup ∧
    NodeIdxOk (ids.foldl (fun g id => (g.add_node id).1) g0) ∧
    (∀ x, x ∈ (ids.foldl (fun g id => (g.add_node id).1) g0).nodes
        ↔ (x ∈ g0.nodes ∨ x ∈ ids)) := by
  intro ids
  induction ids with
  | nil =>
    intro g0 hok hnd
    refine ⟨hnd, hok, ?_⟩
    intro x
    simp
  | cons id rest ih =>
    intro g0 hok hnd
    obtain ⟨hch, hok1⟩ := add_node_nodes_char g0 id hok
    have hnd1 : (g0.add_node id).1.nodes.Nodup := by
      rw [hch]
      by_cases hmem : id ∈ g0.nodes
      · rw [if_pos hmem]
        exact hnd
      · rw [if_neg hmem]
        rw [List.nodup_append]
        refine ⟨hnd, List.nodup_singleton id, ?_⟩
        intro a ha hb
        rw [List.mem_singleton] at hb
        subst hb
        exact hmem ha
    have hmem1 : ∀ x, x ∈ (g0.add_node id).1.nodes
        ↔ (x ∈ g0.nodes ∨ x = id) := by
      intro x
      rw [hch]
      by_cases hmem : id ∈ g0.nodes
      · rw [if_pos hmem]
        constructor
        · intro hx
          exact Or.inl hx
        · rintro (hx | hx)
          · exact hx
          · rw [hx]
            exact hmem
      · rw [if_neg hmem]
        simp [List.mem_append]
    obtain ⟨ih1, ih2, ih3⟩ := ih (g0.add_node id).1 hok1 hnd1
    simp only [List.foldl_cons]
    refine ⟨ih1, ih2, ?_⟩
    intro x
    rw [ih3 x, hmem1 x]
    simp [List.mem_cons]
    tauto

/-- The pieces of the invariant needed to range-check surviving edges. -/
def RangeOk (g : DiGraph) : Prop :=
  g.adj.length = g.nodes.length ∧
  ∀ l ∈ g.adj, ∀ v ∈ l, v < g.nodes.length

lemma rangeOk_add_node (g : DiGraph) (id : String) (h : RangeOk g) :
    RangeOk (g.add_node id).1 := by
  obtain ⟨h1, h2⟩ := h
  cases hl : g.node_index.lookup id with
  | some i =>
    have hone : (g.add_node id).1 = g := by
      simp [DiGraph.add_node, hl]
    rw [hone]
    exact ⟨h1, h2⟩
  | none =>
    rw [add_node_fresh_eq g id hl]
    refine ⟨by simp [h1], ?_⟩
    intro l hl2 v hv
    simp only [List.length_append, List.length_singleton]
    rcases List.mem_append.1 hl2 with hm | hm
    · have := h2 l hm v hv
      omega
    · rw [List.mem_singleton] at hm
      subst hm
      simp at hv

lemma rangeOk_add_edge (g : DiGraph) (u v : Nat) (h : RangeOk g) :
    RangeOk (g.add_edge u v) := by
  obtain ⟨h1, h2⟩ := h
  by_cases hc : u ≥ g.nodes.length ∨ v ≥ g.nodes.length
  · rw [add_edge_oob g u v hc]
    exact ⟨h1, h2⟩
  · push_neg at hc
    obtain ⟨hu, hv⟩ := hc
    by_cases hm : v ∈ g.adj.getD u []
    · rw [add_edge_mem g u v hu hv hm]
      exact ⟨h1, h2⟩
    · rw [add_edge_pos g u v hu hv hm]
      refine ⟨by simpa using h1, ?_⟩
      intro l hl2 w hw
      simp only []
      rcases List.mem_or_eq_of_mem_set hl2 with hm2 | hm2
      · exact h2 l hm2 w hw
      · subst hm2
        rcases List.mem_append.1 hw with hw2 | hw2
        · by_cases hu2 : u < g.adj.length
          · exact h2 _ (getD_mem _ _ _ hu2) w hw2
          · rw [getD_oob _ _ _ (Nat.le_of_not_lt hu2)] at hw2
            simp at hw2
        · rw [List.mem_singleton] at hw2
          subst hw2
          exact hv

lemma rangeOk_replay_nodes : ∀ (ids : List String) (g0 : DiGraph),
    RangeOk g0 → RangeOk (ids.foldl (fun g id => (g.add_node id).1) g0) := by
  intro ids
  induction ids with
  | nil => intro g0 h; exact h
  | cons id rest ih =>
    intro g0 h
    simp only [List.foldl_cons]
    exact ih _ (rangeOk_add_node g0 id h)

lemma rangeOk_replay_edges : ∀ (E : List (Nat × Nat)) (g0 : DiGraph),
    RangeOk g0 → RangeOk (E.foldl (fun k e => k.add_edge e.1 e.2) g0) := by
  intro E
  induction E with
  | nil => intro g0 h; exact h
  | cons e rest ih =>
    intro g0 h
    simp only [List.foldl_cons]
    exact ih _ (rangeOk_add_edge g0 e.1 e.2 h)

lemma replay_edges_nodes : ∀ (E : List (Nat × Nat)) (g0 : DiGraph),
    (E.foldl (fun k e => k.add_edge e.1 e.2) g0).nodes = g0.nodes := by
  intro E
  induction E with
  | nil => intro g0; rfl
  | cons e rest ih =>
    intro g0
    simp only [List.foldl_cons]
    rw [ih, add_edge_nodes]

/-- C10: importing a syntactically valid snapshot whose label list
contains a repeated label still succeeds (from_snapshot is total), but
the node count of the result equals the number of distinct labels — which
is strictly smaller than the snapshot list length, breaking the
index-equals-position assumption — and every edge surviving the replay
has both endpoints below that distinct count, so edges referring to the
dropped positions are silently discarded by add_edge's bounds check. -/
theorem from_snapshot_duplicate (s : GraphSnapshot)
    (hdup : ¬ s.nodes.Nodup) :
    (DiGraph.from_snapshot s).node_count = s.nodes.dedup.length ∧
    s.nodes.dedup.length < s.nodes.length ∧
    (∀ e ∈ (DiGraph.from_snapshot s).edgesList,
      e.1 < s.nodes.dedup.length ∧ e.2 < s.nodes.dedup.length) := by
  have hfs : DiGraph.from_snapshot s
      = s.edges.foldl (fun k e => k.add_edge e.1 e.2)
          (s.nodes.foldl (fun g id => (g.add_node id).1)
            (DiGraph.with_capacity s.nodes.length s.edges.length)) := rfl
  have hok0 : NodeIdxOk
      (DiGraph.with_capacity s.nodes.length s.edges.length) := by
    intro id
    constructor
    · intro _
      simp [DiGraph.with_capacity]
    · intro _
      rfl
  obtain ⟨hnd1, _, hmem1⟩ := replay_nodes_dedup s.nodes
    (DiGraph.with_capacity s.nodes.length s.edges.length) hok0
    List.nodup_nil
  have hcnt : (s.nodes.foldl (fun g id => (g.add_node id).1)
      (DiGraph.with_capacity s.nodes.length s.edges.length)).nodes.length
      = s.nodes.dedup.length := by
    have hfin : (s.nodes.foldl (fun g id => (g.add_node id).1)
        (DiGraph.with_capacity s.nodes.length s.edges.length)).nodes.toFinset
        = s.nodes.toFinset := by
      ext x
      simp only [List.mem_toFinset]
      rw [hmem1 x]
      simp [DiGraph.with_capacity]
    calc (s.nodes.foldl (fun g id => (g.add_node id).1)
          (DiGraph.with_capacity s.nodes.length s.edges.length)).nodes.length
        = (s.nodes.foldl (fun g id => (g.add_node id).1)
          (DiGraph.with_capacity s.nodes.length
            s.edges.length)).nodes.toFinset.card :=
          (List.toFinset_card_of_nodup hnd1).symm
      _ = s.nodes.toFinset.card := by rw [hfin]
      _ = s.nodes.dedup.length := List.card_toFinset _
  have hnodes : (DiGraph.from_snapshot s).nodes
      = (s.nodes.foldl (fun g id => (g.add_node id).1)
          (DiGraph.with_capacity s.nodes.length s.edges.length)).nodes := by
    rw [hfs, replay_edges_nodes]
  have hlt : s.nodes.dedup.length < s.nodes.length := by
    have hle := (List.dedup_sublist s.nodes).length_le
    have hne : s.nodes.dedup.length ≠ s.nodes.length := by
      intro he
      have hdd := (List.dedup_sublist s.nodes).eq_of_length he
      exact hdup (hdd ▸ List.nodup_dedup s.nodes)
    omega
  have hR : RangeOk (DiGraph.from_snapshot s) := by
    rw [hfs]
    refine rangeOk_replay_edges s.edges _ (rangeOk_replay_nodes s.nodes _ ?_)
    refine ⟨rfl, ?_⟩
    intro l hl
    simp [DiGraph.with_capacity] at hl
  have hRn : (DiGraph.from_snapshot s).nodes.length
      = s.nodes.dedup.length := by
    rw [hnodes, hcnt]
  refine ⟨?_, hlt, ?_⟩
  · show (DiGraph.from_snapshot s).nodes.length = _
    exact hRn
  · intro e he
    obtain ⟨h1, h2⟩ := (mem_edgesList _ e.1 e.2).1 he
    constructor
    · rw [← hRn, ← hR.1]
      exact h1
    · rw [← hRn]
      exact hR.2 _ (getD_mem _ _ _ h1) e.2 h2

/-- A concrete snapshot with a repeated label and an edge pointing at the
dropped position. -/
def sDup : GraphSnapshot :=
  { nodes := ["a", "a"], edges := [(0, 1)] }

/-- C10 witness: concrete instance on the duplicate-label snapshot. -/
theorem from_snapshot_duplicate_witness :
    (DiGraph.from_snapshot sDup).node_count = sDup.nodes.dedup.length ∧
    sDup.nodes.dedup.length < sDup.nodes.length ∧
    (∀ e ∈ (DiGraph.from_snapshot sDup).edgesList,
      e.1 < sDup.nodes.dedup.length ∧ e.2 < sDup.nodes.dedup.length) :=
  from_snapshot_duplicate sDup (by decide)
